import Mathlib

/-!
# Verification of the `dupe-d` file-duplicate scanner

A shallow embedding of `src/main.go` (package `main` of the `dupe-d` CLI).
Strings are modelled as `List Char` (`GoStr`), file contents as `List ℕ`
(byte values), and the process environment (filesystem, walk events, fault
injection for I/O errors) as explicit data threaded through the functions.
Each Go function keeps its source name: `formatExtensions`,
`matchesExtension`, `hashFile`, `processFiles`, `writeToCsv`,
`getFolderPath`, `validateDirectory`, plus `mainRun` for `main` together
with the cobra `RunE` closure.

Go standard-library primitives used by the source (`strings.Split`,
`strings.TrimSpace`, `strings.HasPrefix`, `filepath.Ext`, `crypto/sha256`)
are modelled here at the level of their documented behaviour, since their
code is not part of this repository.
-/

set_option maxRecDepth 100000

namespace DupeD

/-- Go strings, modelled as lists of characters. -/
abbrev GoStr := List Char

/-- Go `unicode.IsSpace`: the Unicode White_Space code points
(`\t \n \v \f \r` space, NEL, NBSP and the higher Unicode space code
points). -/
def isGoSpace (c : Char) : Bool :=
  let n := c.toNat
  (0x09 ≤ n && n ≤ 0x0d) || n = 0x20 || n = 0x85 || n = 0xa0 ||
  n = 0x1680 || (0x2000 ≤ n && n ≤ 0x200a) || n = 0x2028 || n = 0x2029 ||
  n = 0x202f || n = 0x205f || n = 0x3000

/-- Go `strings.Split(s, ",")`: split at every comma; the empty string
splits to `[""]`. -/
def splitOnComma : GoStr → List GoStr
  | [] => [[]]
  | c :: rest =>
    if c = ',' then [] :: splitOnComma rest
    else
      match splitOnComma rest with
      | [] => [[c]]
      | h :: t => (c :: h) :: t

/-- Go `strings.TrimSpace`: drop leading and trailing white space. -/
def trimSpace (s : GoStr) : GoStr :=
  ((s.dropWhile isGoSpace).reverse.dropWhile isGoSpace).reverse

/-- Go `strings.HasPrefix p s` (arguments: the prefix first, then the
string), by direct character comparison. -/
def goStartsWith : GoStr → GoStr → Bool
  | [], _ => true
  | _ :: _, [] => false
  | p :: ps, c :: cs => p = c && goStartsWith ps cs

/-- `formatExtensions` from `src/main.go`: for each raw `--ext` token,
split on commas, trim white space, drop empties, prepend `.` when absent,
appending results in encounter order (the nested `for` loops with
`append`, rendered as nested left folds). -/
def formatExtensions (rawExts : List GoStr) : List GoStr :=
  rawExts.foldl
    (fun acc ext =>
      (splitOnComma ext).foldl
        (fun acc2 splitExt =>
          let t := trimSpace splitExt
          if t = [] then acc2
          else if goStartsWith ['.'] t then acc2 ++ [t]
          else acc2 ++ [('.' :: t)])
        acc)
    []

/-- The extension normalizer as the spec's §4.1 words describe it: for each
token, split on commas, trim each sub-token, skip the ones empty after
trimming, prepend `.` if not already present, keeping input order. -/
def normalizeSpec (rawExts : List GoStr) : List GoStr :=
  (rawExts.map (fun ext =>
    (((splitOnComma ext).map trimSpace).filter (fun t => !t.isEmpty)).map
      (fun t => if goStartsWith ['.'] t then t else '.' :: t))).flatten

/-- The backwards scan of Go `filepath.Ext`: walk the path from its last
character towards the front, stopping at a path separator (`/` on Unix),
and return the suffix from the first `.` found. `revPath` is the
still-unexamined part of the path, reversed; `acc` the characters already
passed over, in path order. -/
def extScan : List Char → List Char → GoStr
  | [], _ => []
  | c :: rest, acc =>
    if c = '/' then []
    else if c = '.' then c :: acc
    else extScan rest (c :: acc)

/-- Go `filepath.Ext path`: the file name extension, i.e. the suffix
starting at the final dot in the final path element; empty if there is
no dot. -/
def pathExt (path : GoStr) : GoStr := extScan path.reverse []

/-- `matchesExtension` from `src/main.go`: an empty filter matches every
path; otherwise the path's extension must equal one filter entry. -/
def matchesExtension (path : GoStr) (exts : List GoStr) : Bool :=
  if exts.length = 0 then true
  else exts.any (fun e => pathExt path = e)

/-- The spec's §4.3 description of the extension: the base name is the part
of the path after the last separator. -/
def baseName (p : GoStr) : GoStr :=
  (p.reverse.takeWhile (fun c => c ≠ '/')).reverse

/-- The spec's §4.3 description: "the substring from the last `.` in the
base name to the end, or empty if none". -/
def specExt (p : GoStr) : GoStr :=
  let b := baseName p
  if '.' ∈ b then '.' :: (b.reverse.takeWhile (fun c => c ≠ '.')).reverse
  else []

/-! ## SHA-256 (model of Go `crypto/sha256`, i.e. FIPS 180-4)

Bytes are naturals below 256, 32-bit words naturals below `2 ^ 32`, with
overflow made explicit by reduction modulo `2 ^ 32`. -/

/-- Truncate to a 32-bit word. -/
def w32 (n : ℕ) : ℕ := n % 2 ^ 32

/-- Right rotation of a 32-bit word. -/
def rotr32 (k x : ℕ) : ℕ := w32 ((x >>> k) ||| (x <<< (32 - k)))

/-- FIPS 180-4 `Ch`: the complement is XOR with the all-ones word. -/
def shaCh (x y z : ℕ) : ℕ := (x &&& y) ^^^ ((x ^^^ (2 ^ 32 - 1)) &&& z)

/-- FIPS 180-4 `Maj`. -/
def shaMaj (x y z : ℕ) : ℕ := (x &&& y) ^^^ (x &&& z) ^^^ (y &&& z)

/-- FIPS 180-4 `Σ₀`. -/
def bigSigma0 (x : ℕ) : ℕ := rotr32 2 x ^^^ rotr32 13 x ^^^ rotr32 22 x

/-- FIPS 180-4 `Σ₁`. -/
def bigSigma1 (x : ℕ) : ℕ := rotr32 6 x ^^^ rotr32 11 x ^^^ rotr32 25 x

/-- FIPS 180-4 `σ₀`. -/
def smallSigma0 (x : ℕ) : ℕ := rotr32 7 x ^^^ rotr32 18 x ^^^ (x >>> 3)

/-- FIPS 180-4 `σ₁`. -/
def smallSigma1 (x : ℕ) : ℕ := rotr32 17 x ^^^ rotr32 19 x ^^^ (x >>> 10)

/-- The 64 SHA-256 round constants of FIPS 180-4 (the cube-root words,
written in decimal). -/
def shaK : List ℕ :=
  [1116352408, 1899447441, 3049323471, 3921009573,
   961987163, 1508970993, 2453635748, 2870763221,
   3624381080, 310598401, 607225278, 1426881987,
   1925078388, 2162078206, 2614888103, 3248222580,
   3835390401, 4022224774, 264347078, 604807628,
   770255983, 1249150122, 1555081692, 1996064986,
   2554220882, 2821834349, 2952996808, 3210313671,
   3336571891, 3584528711, 113926993, 338241895,
   666307205, 773529912, 1294757372, 1396182291,
   1695183700, 1986661051, 2177026350, 2456956037,
   2730485921, 2820302411, 3259730800, 3345764771,
   3516065817, 3600352804, 4094571909, 275423344,
   430227734, 506948616, 659060556, 883997877,
   958139571, 1322822218, 1537002063, 1747873779,
   1955562222, 2024104815, 2227730452, 2361852424,
   2428436474, 2756734187, 3204031479, 3329325298]


/-- The SHA-256 initial hash value of FIPS 180-4 (the square-root words,
written in decimal). -/
def shaH0 : List ℕ :=
  [1779033703, 3144134277, 1013904242, 2773480762,
   1359893119, 2600822924, 528734635, 1541459225]


/-- One step of the message-schedule extension. `w` holds the words
produced so far, most recent first, so indices 1, 6, 14, 15 are
`W[t-2]`, `W[t-7]`, `W[t-15]`, `W[t-16]`. -/
def scheduleStep (w : List ℕ) : ℕ :=
  w32 (smallSigma1 (w.getD 1 0) + w.getD 6 0 +
       smallSigma0 (w.getD 14 0) + w.getD 15 0)

/-- Extend the message schedule by `k` further words (`acc` reversed). -/
def buildW : ℕ → List ℕ → List ℕ
  | 0, acc => acc.reverse
  | k + 1, acc => buildW k (scheduleStep acc :: acc)

/-- The 64-word message schedule of a 16-word block. -/
def msgSchedule (block : List ℕ) : List ℕ := buildW 48 block.reverse

/-- The eight working registers of the compression function. -/
structure Regs where
  a : ℕ
  b : ℕ
  c : ℕ
  d : ℕ
  e : ℕ
  f : ℕ
  g : ℕ
  h : ℕ

/-- One round of the SHA-256 compression function; `wk` is the pair of the
schedule word and the round constant. -/
def shaRound (r : Regs) (wk : ℕ × ℕ) : Regs :=
  let t1 := w32 (r.h + bigSigma1 r.e + shaCh r.e r.f r.g + wk.1 + wk.2)
  let t2 := w32 (bigSigma0 r.a + shaMaj r.a r.b r.c)
  ⟨w32 (t1 + t2), r.a, r.b, r.c, w32 (r.d + t1), r.e, r.f, r.g⟩

/-- The SHA-256 compression function on a 16-word block. -/
def compress (hv : List ℕ) (block : List ℕ) : List ℕ :=
  let r0 : Regs :=
    ⟨hv.getD 0 0, hv.getD 1 0, hv.getD 2 0, hv.getD 3 0,
     hv.getD 4 0, hv.getD 5 0, hv.getD 6 0, hv.getD 7 0⟩
  let r := ((msgSchedule block).zip shaK).foldl shaRound r0
  [w32 (hv.getD 0 0 + r.a), w32 (hv.getD 1 0 + r.b),
   w32 (hv.getD 2 0 + r.c), w32 (hv.getD 3 0 + r.d),
   w32 (hv.getD 4 0 + r.e), w32 (hv.getD 5 0 + r.f),
   w32 (hv.getD 6 0 + r.g), w32 (hv.getD 7 0 + r.h)]

/-- Chunk-splitting worker: `acc` is the current chunk reversed, `k` the
capacity left in it before a new chunk must start. -/
def chunksOfAux (n : ℕ) : List α → List α → ℕ → List (List α)
  | [], acc, _ => if acc.isEmpty then [] else [acc.reverse]
  | x :: xs, acc, 0 => acc.reverse :: chunksOfAux n xs [x] (n - 1)
  | x :: xs, acc, k + 1 => chunksOfAux n xs (x :: acc) k

/-- Split a list into consecutive chunks of `n` elements; the final chunk
may be shorter. Used for 4-byte words, 16-word blocks, and the 1 MiB read
buffer of `hashFile`. -/
def chunksOf (n : ℕ) : List α → List (List α)
  | [] => []
  | x :: xs => chunksOfAux n xs [x] (n - 1)

/-- Big-endian assembly of bytes into words. -/
def bytesToWords (bytes : List ℕ) : List ℕ :=
  (chunksOf 4 bytes).map (fun c => c.foldl (fun acc b => acc * 256 + b) 0)

/-- Big-endian decomposition of a 32-bit word into four bytes. -/
def wordToBytes (w : ℕ) : List ℕ :=
  [w / 2 ^ 24 % 256, w / 2 ^ 16 % 256, w / 2 ^ 8 % 256, w % 256]

/-- The eight-byte big-endian encoding of the message bit length. -/
def lenBytes64 (n : ℕ) : List ℕ :=
  [n / 2 ^ 56 % 256, n / 2 ^ 48 % 256, n / 2 ^ 40 % 256, n / 2 ^ 32 % 256,
   n / 2 ^ 24 % 256, n / 2 ^ 16 % 256, n / 2 ^ 8 % 256, n % 256]

/-- FIPS 180-4 padding: a `0x80` byte, zeros up to 56 mod 64, then the
bit length. -/
def padMsg (msg : List ℕ) : List ℕ :=
  msg ++ 0x80 :: List.replicate ((119 - msg.length % 64) % 64) 0 ++
    lenBytes64 (8 * msg.length)

/-- The SHA-256 digest (32 bytes) of a byte string. -/
def sha256 (msg : List ℕ) : List ℕ :=
  (((chunksOf 16 (bytesToWords (padMsg msg))).foldl compress shaH0).map
    wordToBytes).flatten

/-- The lowercase hexadecimal digit for `n < 16` (`'0'` is 48, `'a'` 97). -/
def hexDigitChar (n : ℕ) : Char :=
  if n < 10 then Char.ofNat (48 + n) else Char.ofNat (87 + n)

/-- Go `fmt.Sprintf("%x", bytes)`: two lowercase hexadecimal digits per
byte. The high nibble is reduced mod 16 so the function is total on `ℕ`;
digest bytes are below 256, where the reduction is the identity. -/
def hexEncode (bytes : List ℕ) : GoStr :=
  (bytes.map (fun b => [hexDigitChar (b / 16 % 16), hexDigitChar (b % 16)])).flatten

example : hexEncode (sha256 []) =
    "e3b0c44298fc1c149afbf4c8996fb92427ae41e4649b934ca495991b7852b855".data := by
  decide

example : hexEncode (sha256 [0x61, 0x62, 0x63]) =
    "ba7816bf8f01cfea414140de5dae2223b00361a396177a9cb410ff61f20015ad".data := by
  decide

/-! ## The modelled process environment

File I/O is shallowly embedded: the filesystem is a partial map from
paths to file states, a file state carries its byte content plus fault
switches that make a read or a stat fail, and `filepath.WalkDir` is
abstracted as the sequence of (path, directory?, walk error) callbacks it
delivers — its traversal order is implementation-defined, so the events
are part of the environment. -/

/-- The errors the program can propagate (spec §7 taxonomy). -/
inductive GoError where
  | openFailed
  | readFailed
  | statFailed
  | hashFailed (path : GoStr) (e : GoError)
  | statWrapped (path : GoStr) (e : GoError)
  | createFailed
  | headerWriteFailed
  | rowWriteFailed
  | dirNotAccessible
  | notADirectory
  | cwdFailed
  | tooManyArgs
deriving DecidableEq

/-- A file as the scan can observe it: its bytes, an optional read fault
injected after a number of successful buffer reads, and a stat fault. -/
structure GoFile where
  content : List ℕ
  readErrAfter : Option ℕ
  statErr : Bool
deriving DecidableEq

/-- The filesystem: which paths open as files, and to what. `none` means
`os.Open`/`os.Stat` on that path fails. -/
abbrev FileSys := GoStr → Option GoFile

/-- Go `crypto/sha256` digest state at the level of the `hash.Hash`
contract: `Write` appends to the running message, `Sum` digests it. -/
structure GoHash where
  written : List ℕ

/-- `sha256.New()`. -/
def GoHash.new : GoHash := ⟨[]⟩

/-- `hash.Write`: add more data to the running hash. -/
def GoHash.write (h : GoHash) (p : List ℕ) : GoHash := ⟨h.written ++ p⟩

/-- `hash.Sum(nil)`: the digest of everything written. -/
def GoHash.sum (h : GoHash) : List ℕ := sha256 h.written

/-- Go `io.CopyBuffer(hash, file, buf)` with a `len(buf)`-byte buffer:
reads successive chunks of at most `bufSize` bytes, writing each into the
digest; a file with an injected read fault makes the copy return that
error (the writes made before the fault are discarded with the hash). -/
def copyBuffer (dst : GoHash) (f : GoFile) (bufSize : ℕ) :
    Except GoError GoHash :=
  match f.readErrAfter with
  | some _ => .error .readFailed
  | none => .ok ((chunksOf bufSize f.content).foldl GoHash.write dst)

/-- `hashFile` from `src/main.go`: open the file, stream it through a
SHA-256 digest via a 1 MiB buffer, and hex-encode the sum. -/
def hashFile (fs : FileSys) (path : GoStr) : Except GoError GoStr :=
  match fs path with
  | none => .error .openFailed
  | some f =>
    match copyBuffer GoHash.new f (1024 * 1024) with
    | .error e => .error e
    | .ok h => .ok (hexEncode h.sum)

/-- What `os.Stat` returns: `FileInfo.Name()` (the base name) and
`FileInfo.Size()` (the byte count). -/
structure StatInfo where
  name : GoStr
  size : ℕ
deriving DecidableEq

/-- `os.Stat`: fails when the path is absent or its stat fault is set. -/
def osStat (fs : FileSys) (path : GoStr) : Except GoError StatInfo :=
  match fs path with
  | none => .error .statFailed
  | some f =>
    if f.statErr then .error .statFailed
    else .ok ⟨baseName path, f.content.length⟩

/-- The `HashedFileInfo` record of `src/main.go`. -/
structure HashedFileInfo where
  name : GoStr
  path : GoStr
  size : ℕ
  hash : GoStr
deriving DecidableEq

/-- One callback delivered by `filepath.WalkDir`: the visited path,
whether it is a directory, and the error argument (non-`nil` when the
traversal primitive itself failed on this entry). -/
structure WalkEvent where
  path : GoStr
  isDir : Bool
  err : Option GoError
deriving DecidableEq

/-- The walk-callback loop of `processFiles`: returning an error from the
callback aborts `filepath.WalkDir`, which propagates it. `acc` is the
`files` slice, `out` the standard-output lines so far. -/
def processEvents (fs : FileSys) (exts : List GoStr) :
    List WalkEvent → List HashedFileInfo → List GoStr →
    Except GoError (List HashedFileInfo) × List GoStr
  | [], acc, out => (.ok acc, out)
  | ev :: rest, acc, out =>
    match ev.err with
    | some e => (.error e, out)
    | none =>
      if ev.isDir then processEvents fs exts rest acc out
      else if matchesExtension ev.path exts then
        let out2 := out ++ ["Processing: ".data ++ ev.path]
        match hashFile fs ev.path with
        | .error e => (.error (.hashFailed ev.path e), out2)
        | .ok hsh =>
          match osStat fs ev.path with
          | .error e => (.error (.statWrapped ev.path e), out2)
          | .ok st =>
            processEvents fs exts rest
              (acc ++ [⟨st.name, ev.path, st.size, hsh⟩]) out2
      else processEvents fs exts rest acc out

/-- `processFiles` from `src/main.go`: print the banner lines, then run
the walk over its events, starting from an empty record list. -/
def processFiles (fs : FileSys) (events : List WalkEvent) (folderPath : GoStr)
    (exts : List GoStr) : Except GoError (List HashedFileInfo) × List GoStr :=
  let banner :=
    ("Scanning folder: ".data ++ folderPath) ::
      (if exts.length > 0 then
        ["Filtering by extensions: ".data ++ List.intercalate ", ".data exts]
      else ["Processing all file types".data])
  processEvents fs exts events [] banner

/-! ## Size formatting (`fmt.Sprintf("%.2f", float64(size)/1048576.0)`) -/

/-- The character of a decimal digit. -/
def digitChar10 (n : ℕ) : Char := Char.ofNat (48 + n)

/-- Decimal digits of a natural number, most significant first; the fuel
(first argument) bounds the recursion and `n + 1` always suffices. -/
def natToDecAux : ℕ → ℕ → GoStr
  | 0, _ => []
  | fuel + 1, n =>
    if n < 10 then [digitChar10 n]
    else natToDecAux fuel (n / 10) ++ [digitChar10 (n % 10)]

/-- The decimal representation of a natural number. -/
def natToDec (n : ℕ) : GoStr := natToDecAux (n + 1) n

/-- Round the fraction `a / b` to the nearest natural, ties to even — the
rounding Go's `strconv` fixed-precision decimal conversion applies. (The
program only ever formats nonnegative values.) -/
def roundNatTE (a b : ℕ) : ℕ :=
  if 2 * (a % b) < b then a / b
  else if b < 2 * (a % b) then a / b + 1
  else if (a / b) % 2 = 0 then a / b else a / b + 1

/-- Go `fmt.Sprintf("%.2f", v)` for a nonnegative value given as the
exact fraction `num / den`: round `v * 100` to the nearest integer (ties
to even) and place the decimal point two digits from the right. -/
def goFmtF2 (num den : ℕ) : GoStr :=
  let n := roundNatTE (num * 100) den
  natToDec (n / 100) ++ '.' ::
    (if n % 100 < 10 then '0' :: natToDec (n % 100) else natToDec (n % 100))

/-- Round to the nearest multiple of `m`, ties to the even multiple. -/
def roundMultTE (n m : ℕ) : ℕ :=
  if 2 * (n % m) < m then n / m * m
  else if m < 2 * (n % m) then (n / m + 1) * m
  else if (n / m) % 2 = 0 then n / m * m else (n / m + 1) * m

/-- The value of Go's `float64(n)` conversion of a nonnegative `int64`:
exact up to `2 ^ 53`, beyond that rounded to the nearest value with 53
significant bits (ties to even). -/
def f64OfNat (n : ℕ) : ℕ :=
  if n ≤ 2 ^ 53 then n else roundMultTE n (2 ^ (n.log2 - 52))

/-- The exact value of the `float64` expression
`float64(size) / 1048576.0`: dividing by `2 ^ 20` only shifts the
exponent, so no further rounding occurs. -/
def sizeMB (size : ℕ) : ℚ := (f64OfNat size : ℚ) / 1048576

/-- The `Size (MB)` CSV field: `fmt.Sprintf("%.2f",
float64(size)/1048576.0)`, with the float value carried as the exact
fraction `f64OfNat size / 2 ^ 20`. -/
def sizeMBStr (size : ℕ) : GoStr := goFmtF2 (f64OfNat size) 1048576

/-- Round a rational to the nearest integer, ties to even — the
specification-level description of the rounding in `roundNatTE`. -/
def nearestTE (q : ℚ) : ℤ :=
  if q - ⌊q⌋ < 1 / 2 then ⌊q⌋
  else if 1 / 2 < q - ⌊q⌋ then ⌊q⌋ + 1
  else if ⌊q⌋ % 2 = 0 then ⌊q⌋ else ⌊q⌋ + 1

/-! ## The report writer -/

/-- The fixed CSV header row. -/
def csvHeader : List GoStr :=
  ["Name".data, "Path".data, "Size (MB)".data, "Hash".data]

/-- The CSV row written for one record. -/
def recordRow (r : HashedFileInfo) : List GoStr :=
  [r.name, r.path, sizeMBStr r.size, r.hash]

/-- Fault switches and ambient inputs of `writeToCsv`: the formatted
`time.Now()` timestamp, whether `os.Create` succeeds, whether the header
write succeeds, the index of the first record whose write fails (if any),
and what `filepath.Abs` returns (`none`: it fails). -/
structure CsvEnv where
  timestamp : GoStr
  createOk : Bool
  headerWriteOk : Bool
  rowWriteFailAt : Option ℕ
  absResolve : Option GoStr

/-- The output file name `hash_results_<timestamp>.csv`. -/
def outputFilename (env : CsvEnv) : GoStr :=
  "hash_results_".data ++ env.timestamp ++ ".csv".data

/-- The row loop of `writeToCsv`: the rows the CSV writer accepted, and
an error if the write of some record failed (at index `failAt`). -/
def writeRows (records : List HashedFileInfo) (failAt : Option ℕ) :
    Except GoError Unit × List (List GoStr) :=
  match failAt with
  | none => (.ok (), records.map recordRow)
  | some k =>
    if k < records.length then (.error .rowWriteFailed, (records.take k).map recordRow)
    else (.ok (), records.map recordRow)

/-- The observable outcome of `writeToCsv`: the returned error, the
output file (name and flushed rows) if `os.Create` ran, and the
standard-output lines. -/
structure CsvResult where
  result : Except GoError Unit
  file : Option (GoStr × List (List GoStr))
  stdout : List GoStr

/-- `writeToCsv` from `src/main.go`: create the timestamped file, write
the header, then one row per record; on success print the report's
absolute path (falling back to the relative name when `filepath.Abs`
fails). A failed create leaves no file, while a failed header or row
write returns an error with the created file still on disk. -/
def writeToCsv (env : CsvEnv) (records : List HashedFileInfo) : CsvResult :=
  let name := outputFilename env
  if !env.createOk then
    ⟨.error .createFailed, none, []⟩
  else if !env.headerWriteOk then
    ⟨.error .headerWriteFailed, some (name, []), []⟩
  else
    match writeRows records env.rowWriteFailAt with
    | (.error e, rows) => ⟨.error e, some (name, csvHeader :: rows), []⟩
    | (.ok _, rows) =>
      let absPath := env.absResolve.getD name
      ⟨.ok (), some (name, csvHeader :: rows),
        ["Output written to: ".data ++ absPath]⟩

/-! ## The CLI shell (`rootCmd.RunE` and `main`) -/

/-- The whole process environment. -/
structure Env where
  fs : FileSys
  events : List WalkEvent
  dirStat : GoStr → Option Bool
  cwd : Option GoStr
  rawExts : List GoStr
  csv : CsvEnv

/-- `validateDirectory` from `src/main.go`: `stat` gives `none` when
`os.Stat` fails and otherwise whether the path is a directory. -/
def validateDirectory (stat : GoStr → Option Bool) (path : GoStr) :
    Except GoError GoStr :=
  match stat path with
  | none => .error .dirNotAccessible
  | some d => if !d then .error .notADirectory else .ok path

/-- `getFolderPath` from `src/main.go`: validate an explicit argument, or
fall back to the current working directory. -/
def getFolderPath (env : Env) (args : List GoStr) : Except GoError GoStr :=
  if args.length > 0 then validateDirectory env.dirStat (args.getD 0 [])
  else
    match env.cwd with
    | none => .error .cwdFailed
    | some d => .ok d

/-- The `RunE` closure of `rootCmd`: resolve the folder, normalize the
`--ext` flag values, scan, then write the report. Returns the error, the
standard-output lines, and the output file if one was created. -/
def runE (env : Env) (args : List GoStr) :
    Except GoError Unit × List GoStr × Option (GoStr × List (List GoStr)) :=
  match getFolderPath env args with
  | .error e => (.error e, [], none)
  | .ok folder =>
    match processFiles env.fs env.events folder (formatExtensions env.rawExts) with
    | (.error e, out) => (.error e, out, none)
    | (.ok files, out) =>
      let cr := writeToCsv env.csv files
      (cr.result, out ++ cr.stdout, cr.file)

/-- The observable outcome of one program run. -/
structure RunResult where
  exitCode : ℕ
  stderrErr : Option GoError
  stdout : List GoStr
  csvFile : Option (GoStr × List (List GoStr))
deriving DecidableEq

/-- `main` from `src/main.go` (with cobra's argument check): more than
one positional argument is rejected before `RunE` runs; a returned error
is printed to standard error. `main` then returns without calling
`os.Exit`, so the process exit status is 0 on every path. -/
def mainRun (env : Env) (args : List GoStr) : RunResult :=
  if args.length > 1 then ⟨0, some .tooManyArgs, [], none⟩
  else
    match runE env args with
    | (.ok _, out, file) => ⟨0, none, out, file⟩
    | (.error e, out, file) => ⟨0, some e, out, file⟩

example : formatExtensions ["jpg".data, " .png, txt ".data] =
    [".jpg".data, ".png".data, ".txt".data] := by decide

example : formatExtensions ["".data] = [] := by decide

example : sizeMBStr 1048576 = "1.00".data := by decide
example : sizeMBStr 0 = "0.00".data := by decide
example : sizeMBStr 524288 = "0.50".data := by decide
example : sizeMBStr 5243 = "0.01".data := by decide
example : sizeMBStr 131072 = "0.12".data := by decide
example : sizeMBStr 393216 = "0.38".data := by decide

example : pathExt "a/b/c.txt".data = ".txt".data := by decide
example : pathExt "a.b/c".data = [] := by decide
example : specExt "a.b/c".data = [] := by decide
example : matchesExtension "x/a.jpg".data [".jpg".data] = true := by decide
example : matchesExtension "x/b.JPG".data [".jpg".data] = false := by decide

/-! ## Streaming lemmas: chunked writes digest the whole content -/

theorem chunksOfAux_flatten {α : Type} (n : ℕ) (l : List α) :
    ∀ (acc : List α) (k : ℕ), (chunksOfAux n l acc k).flatten = acc.reverse ++ l := by
  induction l with
  | nil =>
    intro acc _
    cases acc with
    | nil => simp [chunksOfAux]
    | cons a as => simp [chunksOfAux]
  | cons x xs ih =>
    intro acc k
    cases k with
    | zero => simp [chunksOfAux, ih]
    | succ k => simp [chunksOfAux, ih]

/-- Reassembling the chunks of a list gives the list back. -/
theorem chunksOf_flatten {α : Type} (n : ℕ) (l : List α) :
    (chunksOf n l).flatten = l := by
  cases l with
  | nil => rfl
  | cons x xs => simp [chunksOf, chunksOfAux_flatten]

/-- Writing a sequence of chunks into the hash appends their bytes in
order to the running message. -/
theorem foldl_write_written (cs : List (List ℕ)) :
    ∀ h : GoHash, (cs.foldl GoHash.write h).written = h.written ++ cs.flatten := by
  induction cs with
  | nil => intro h; simp
  | cons c cs ih => intro h; simp [ih, GoHash.write]

/-- The characters the hex encoder can emit. -/
theorem hexEncode_lower (bytes : List ℕ) :
    ∀ c ∈ hexEncode bytes, c ∈ "0123456789abcdef".data := by
  intro c hc
  simp only [hexEncode, List.mem_flatten, List.mem_map] at hc
  obtain ⟨l, ⟨b, _, rfl⟩, hcl⟩ := hc
  have hx : ∀ m < 16, hexDigitChar m ∈ "0123456789abcdef".data := by decide
  simp only [List.mem_cons, List.not_mem_nil, or_false] at hcl
  rcases hcl with h | h
  · exact h ▸ hx _ (Nat.mod_lt _ (by omega))
  · exact h ▸ hx _ (Nat.mod_lt _ (by omega))

/-- C1: for every file path, `hashFile` opens the file and returns the
lowercase hexadecimal encoding of the SHA-256 digest of the file's entire
byte content (streamed through a 1 MiB buffer, which digests exactly the
concatenation of the chunks), and returns an error exactly when the file
cannot be opened or a read fails mid-stream. -/
theorem hashFile_spec (fs : FileSys) (path : GoStr) :
    (∀ f, fs path = some f → f.readErrAfter = none →
      hashFile fs path = .ok (hexEncode (sha256 f.content)) ∧
      ∀ c ∈ hexEncode (sha256 f.content), c ∈ "0123456789abcdef".data) ∧
    ((∃ s, hashFile fs path = .ok s) ↔
      ∃ f, fs path = some f ∧ f.readErrAfter = none) := by
  constructor
  · intro f hopen hread
    refine ⟨?_, hexEncode_lower _⟩
    simp only [hashFile, hopen, copyBuffer, hread]
    have : ((chunksOf (1024 * 1024) f.content).foldl GoHash.write GoHash.new).written
        = f.content := by
      rw [foldl_write_written, chunksOf_flatten]; rfl
    simp [GoHash.sum, this]
  · constructor
    · rintro ⟨s, hs⟩
      simp only [hashFile] at hs
      cases hopen : fs path with
      | none => rw [hopen] at hs; cases hs
      | some f =>
        rw [hopen] at hs
        refine ⟨f, rfl, ?_⟩
        cases hread : f.readErrAfter with
        | none => rfl
        | some k => simp [copyBuffer, hread] at hs
    · rintro ⟨f, hopen, hread⟩
      refine ⟨hexEncode (sha256 f.content), ?_⟩
      simp only [hashFile, hopen, copyBuffer, hread]
      have : ((chunksOf (1024 * 1024) f.content).foldl GoHash.write GoHash.new).written
          = f.content := by
        rw [foldl_write_written, chunksOf_flatten]; rfl
      simp [GoHash.sum, this]

/-- A one-file filesystem holding the bytes of `"abc"` at path `"a"`. -/
def fsEx : FileSys :=
  fun p => if p = "a".data then some ⟨[0x61, 0x62, 0x63], none, false⟩ else none

theorem hashFile_spec_witness :
    hashFile fsEx "a".data = .ok (hexEncode (sha256 [0x61, 0x62, 0x63])) ∧
    hexEncode (sha256 [0x61, 0x62, 0x63]) =
      "ba7816bf8f01cfea414140de5dae2223b00361a396177a9cb410ff61f20015ad".data :=
  ⟨((hashFile_spec fsEx "a".data).1 ⟨[0x61, 0x62, 0x63], none, false⟩
      (by decide) rfl).1,
   by decide⟩

/-! ## The extension matcher -/

theorem takeWhile_cons_of_ne {p : Char} {c : Char} (r : List Char)
    (h : ¬c = p) :
    (c :: r).takeWhile (fun x => x ≠ p) = c :: r.takeWhile (fun x => x ≠ p) := by
  simp [List.takeWhile_cons, h]

theorem takeWhile_cons_of_eq {p : Char} (r : List Char) :
    (p :: r).takeWhile (fun x => x ≠ p) = [] := by
  simp [List.takeWhile_cons]

theorem takeWhile_dot_of_seg (l : List Char)
    (h : '.' ∈ l.takeWhile (fun c => c ≠ '/')) :
    l.takeWhile (fun c => c ≠ '.') =
      (l.takeWhile (fun c => c ≠ '/')).takeWhile (fun c => c ≠ '.') := by
  induction l with
  | nil => rfl
  | cons c r ih =>
    by_cases hslash : c = '/'
    · subst hslash
      rw [takeWhile_cons_of_eq] at h
      cases h
    · rw [takeWhile_cons_of_ne r hslash] at h
      by_cases hdot : c = '.'
      · subst hdot
        rw [takeWhile_cons_of_eq, takeWhile_cons_of_ne r hslash,
          takeWhile_cons_of_eq]
      · have h' : '.' ∈ r.takeWhile (fun c => c ≠ '/') := by
          rcases List.mem_cons.mp h with h | h
          · exact absurd h.symm hdot
          · exact h
        rw [takeWhile_cons_of_ne r hdot, takeWhile_cons_of_ne r hslash,
          takeWhile_cons_of_ne _ hdot, ih h']

theorem extScan_eq (rev : List Char) :
    ∀ acc : List Char,
      extScan rev acc =
        if '.' ∈ rev.takeWhile (fun c => c ≠ '/') then
          '.' :: ((rev.takeWhile (fun c => c ≠ '.')).reverse ++ acc)
        else [] := by
  induction rev with
  | nil => intro acc; simp [extScan]
  | cons c r ih =>
    intro acc
    by_cases hslash : c = '/'
    · subst hslash
      rw [takeWhile_cons_of_eq]
      simp [extScan]
    · by_cases hdot : c = '.'
      · subst hdot
        rw [takeWhile_cons_of_ne r hslash, takeWhile_cons_of_eq]
        simp [extScan]
      · have hstep : extScan (c :: r) acc = extScan r (c :: acc) := by
          simp [extScan, hslash, hdot]
        rw [hstep, ih (c :: acc), takeWhile_cons_of_ne r hslash,
          takeWhile_cons_of_ne r hdot]
        by_cases hmem : '.' ∈ r.takeWhile (fun x => x ≠ '/')
        · have hmem' : '.' ∈ c :: r.takeWhile (fun x => x ≠ '/') :=
            List.mem_cons_of_mem _ hmem
          rw [if_pos hmem, if_pos hmem']
          simp
        · have hmem' : '.' ∉ c :: r.takeWhile (fun x => x ≠ '/') := by
            intro hc
            rcases List.mem_cons.mp hc with hc | hc
            · exact hdot hc.symm
            · exact hmem hc
          rw [if_neg hmem, if_neg hmem']

/-- The backwards scan of `filepath.Ext` computes the spec's description:
the suffix from the last dot of the base name. -/
theorem pathExt_eq_specExt (p : GoStr) : pathExt p = specExt p := by
  simp only [pathExt, specExt, baseName]
  rw [extScan_eq p.reverse []]
  by_cases hmem : '.' ∈ p.reverse.takeWhile (fun c => c ≠ '/')
  · rw [if_pos hmem, if_pos (by simpa using hmem)]
    simp only [List.reverse_reverse, List.append_nil]
    rw [takeWhile_dot_of_seg p.reverse hmem]
  · rw [if_neg hmem, if_neg (by simpa using hmem)]

/-- C2: `matchesExtension path exts` is true iff the filter is empty or
the path's filesystem extension — the substring from the last `.` of the
base name to the end, empty when there is no dot — is literally equal to
some filter entry; and the `filepath.Ext` scan indeed computes that
extension. -/
theorem matchesExtension_spec (path : GoStr) (exts : List GoStr) :
    (matchesExtension path exts = true ↔ exts = [] ∨ specExt path ∈ exts) ∧
    pathExt path = specExt path := by
  refine ⟨?_, pathExt_eq_specExt path⟩
  rw [matchesExtension]
  by_cases hlen : exts.length = 0
  · simp [List.length_eq_zero.mp hlen]
  · rw [if_neg hlen]
    simp only [List.any_eq_true, decide_eq_true_eq]
    constructor
    · rintro ⟨e, he, hx⟩
      exact Or.inr (by rw [← pathExt_eq_specExt, hx]; exact he)
    · rintro (h | h)
      · exact absurd (by simp [h]) hlen
      · exact ⟨specExt path, h, pathExt_eq_specExt path⟩

/-! ## The extension normalizer -/

theorem formatExtensions_inner (l : List GoStr) :
    ∀ acc : List GoStr,
      l.foldl
        (fun acc2 splitExt =>
          let t := trimSpace splitExt
          if t = [] then acc2
          else if goStartsWith ['.'] t then acc2 ++ [t]
          else acc2 ++ [('.' :: t)])
        acc
      = acc ++ ((l.map trimSpace).filter (fun t => !t.isEmpty)).map
          (fun t => if goStartsWith ['.'] t then t else '.' :: t) := by
  induction l with
  | nil => intro acc; simp
  | cons x xs ih =>
    intro acc
    rw [List.foldl_cons, ih]
    by_cases ht : trimSpace x = []
    · simp [ht]
    · by_cases hd : goStartsWith ['.'] (trimSpace x) = true
      · simp [ht, hd, List.isEmpty_iff]
      · simp only [Bool.not_eq_true] at hd
        simp [ht, hd, List.isEmpty_iff]

/-- The loop-and-append `formatExtensions` computes the declarative
normalizer of spec §4.1. -/
theorem formatExtensions_eq_spec (raw : List GoStr) :
    formatExtensions raw = normalizeSpec raw := by
  rw [formatExtensions, normalizeSpec]
  suffices h : ∀ acc : List GoStr,
      raw.foldl
        (fun acc ext =>
          (splitOnComma ext).foldl
            (fun acc2 splitExt =>
              let t := trimSpace splitExt
              if t = [] then acc2
              else if goStartsWith ['.'] t then acc2 ++ [t]
              else acc2 ++ [('.' :: t)])
            acc)
        acc
      = acc ++ (raw.map (fun ext =>
          (((splitOnComma ext).map trimSpace).filter (fun t => !t.isEmpty)).map
            (fun t => if goStartsWith ['.'] t then t else '.' :: t))).flatten by
    simpa using h []
  induction raw with
  | nil => intro acc; simp
  | cons x xs ih =>
    intro acc
    rw [List.foldl_cons, formatExtensions_inner, ih]
    simp

theorem splitOnComma_ne_nil (s : GoStr) : splitOnComma s ≠ [] := by
  cases s with
  | nil => simp [splitOnComma]
  | cons c rest =>
    rw [splitOnComma]
    by_cases hc : c = ','
    · simp [hc]
    · rw [if_neg hc]
      cases h : splitOnComma rest <;> simp

theorem splitOnComma_no_comma (s : GoStr) :
    ∀ t ∈ splitOnComma s, ',' ∉ t := by
  induction s with
  | nil =>
    intro t ht
    simp [splitOnComma] at ht
    simp [ht]
  | cons c rest ih =>
    intro t ht
    rw [splitOnComma] at ht
    by_cases hc : c = ','
    · rw [if_pos hc] at ht
      rcases List.mem_cons.mp ht with h | h
      · simp [h]
      · exact ih t h
    · rw [if_neg hc] at ht
      cases hsplit : splitOnComma rest with
      | nil => exact absurd hsplit (splitOnComma_ne_nil rest)
      | cons hd tl =>
        rw [hsplit] at ht
        rcases List.mem_cons.mp ht with h | h
        · subst h
          intro hmem
          rcases List.mem_cons.mp hmem with h | h
          · exact hc h.symm
          · exact ih hd (hsplit ▸ List.mem_cons_self hd tl) h
        · exact ih t (hsplit ▸ List.mem_cons_of_mem hd h)

theorem splitOnComma_of_no_comma (t : GoStr) (h : ',' ∉ t) :
    splitOnComma t = [t] := by
  induction t with
  | nil => rfl
  | cons c rest ih =>
    have hcne : ¬c = ',' := by
      intro hc
      subst hc
      exact h (List.mem_cons_self ',' rest)
    rw [splitOnComma, if_neg hcne,
      ih (fun hm => h (List.mem_cons_of_mem c hm))]

theorem dropWhile_idem (p : Char → Bool) (l : List Char) :
    (l.dropWhile p).dropWhile p = l.dropWhile p := by
  induction l with
  | nil => rfl
  | cons c r ih =>
    rw [List.dropWhile_cons]
    by_cases hc : p c = true
    · rw [if_pos hc]; exact ih
    · rw [if_neg hc, List.dropWhile_cons, if_neg hc]

theorem head_not_of_dropWhile_self (p : Char → Bool) (c : Char) (l : List Char)
    (h : (c :: l).dropWhile p = c :: l) : p c = false := by
  by_cases hc : p c = true
  · exfalso
    rw [List.dropWhile_cons, if_pos hc] at h
    have := congrArg List.length h
    have hle := (List.dropWhile_sublist (l := l) p).length_le
    simp at this
    omega
  · simpa using hc

theorem dropWhile_append_self (p : Char → Bool) (l m : List Char)
    (hfix : l.dropWhile p = l) (hne : l ≠ []) :
    (l ++ m).dropWhile p = l ++ m := by
  cases l with
  | nil => exact absurd rfl hne
  | cons c r =>
    have hc := head_not_of_dropWhile_self p c r hfix
    rw [List.cons_append, List.dropWhile_cons, if_neg (by simp [hc])]

/-- The right-trimmed side of a trim-fixed string is also fixed under
dropping leading space from its reverse. -/
theorem dropWhile_reverse_of_trim_fix (t : GoStr) (h : trimSpace t = t) :
    t.reverse.dropWhile isGoSpace = t.reverse := by
  have hx : (t.dropWhile isGoSpace).reverse.dropWhile isGoSpace = t.reverse := by
    have := congrArg List.reverse h
    rwa [trimSpace, List.reverse_reverse] at this
  calc t.reverse.dropWhile isGoSpace
      = ((t.dropWhile isGoSpace).reverse.dropWhile isGoSpace).dropWhile isGoSpace := by
        rw [hx]
    _ = (t.dropWhile isGoSpace).reverse.dropWhile isGoSpace := dropWhile_idem _ _
    _ = t.reverse := hx

theorem trimSpace_idem (s : GoStr) : trimSpace (trimSpace s) = trimSpace s := by
  rw [trimSpace, trimSpace]
  rw [show (((s.dropWhile isGoSpace).reverse.dropWhile isGoSpace).reverse).dropWhile
        isGoSpace = ((s.dropWhile isGoSpace).reverse.dropWhile isGoSpace).reverse from ?_]
  · rw [List.reverse_reverse, dropWhile_idem]
  · -- the reverse of a right-trim of a left-trim is still left-trimmed:
    -- it is a prefix of the left-trimmed list.
    generalize hu : s.dropWhile isGoSpace = u
    cases hv : (u.reverse.dropWhile isGoSpace).reverse with
    | nil => rfl
    | cons c r =>
      -- `c :: r` is a prefix of `u`, so `c` is the head of `u`, which is
      -- not a space because `u` is a dropWhile result.
      have hpref : ∃ m, u = (c :: r) ++ m := by
        have hsuff : ∃ m', u.reverse = m' ++ u.reverse.dropWhile isGoSpace :=
          ⟨u.reverse.takeWhile isGoSpace, (List.takeWhile_append_dropWhile _ _).symm⟩
        obtain ⟨m', hm'⟩ := hsuff
        refine ⟨m'.reverse, ?_⟩
        have := congrArg List.reverse hm'
        rw [List.reverse_reverse, List.reverse_append] at this
        rw [this]
        have : (u.reverse.dropWhile isGoSpace).reverse = c :: r := hv
        rw [this]
      obtain ⟨m, hm⟩ := hpref
      have hufix : u.dropWhile isGoSpace = u := by
        rw [← hu]; exact dropWhile_idem _ _
      have hc : isGoSpace c = false := by
        rw [hm] at hufix
        exact head_not_of_dropWhile_self _ c (r ++ m) (by simpa using hufix)
      rw [List.dropWhile_cons, if_neg (by simp [hc])]

/-- Prepending a non-space character to a trim-fixed string keeps it
trim-fixed. -/
theorem trimSpace_cons_fix (c : Char) (t : GoStr)
    (hc : isGoSpace c = false) (h : trimSpace t = t) :
    trimSpace (c :: t) = c :: t := by
  rw [trimSpace, List.dropWhile_cons, if_neg (by simp [hc])]
  cases htr : t.reverse with
  | nil =>
    have : t = [] := by simpa using congrArg List.reverse htr
    subst this
    simp [List.dropWhile_cons, hc]
  | cons x xs =>
    have hfix : t.reverse.dropWhile isGoSpace = t.reverse :=
      dropWhile_reverse_of_trim_fix t h
    rw [List.reverse_cons]
    rw [dropWhile_append_self _ _ _ hfix (by simp [htr])]
    simp

theorem mem_dropWhile (p : Char → Bool) (l : List Char) :
    ∀ x ∈ l.dropWhile p, x ∈ l := by
  induction l with
  | nil => intro x hx; simp at hx
  | cons c r ih =>
    intro x hx
    rw [List.dropWhile_cons] at hx
    by_cases hc : p c = true
    · rw [if_pos hc] at hx
      exact List.mem_cons_of_mem c (ih x hx)
    · rw [if_neg hc] at hx
      exact hx

theorem mem_trimSpace (s : GoStr) : ∀ x ∈ trimSpace s, x ∈ s := by
  intro x hx
  rw [trimSpace] at hx
  rw [List.mem_reverse] at hx
  have := mem_dropWhile _ _ x hx
  rw [List.mem_reverse] at this
  exact mem_dropWhile _ _ x this

/-- Every token `formatExtensions` emits is non-empty, dot-prefixed,
trim-fixed and comma-free. -/
theorem mem_formatExtensions (raw : List GoStr) (t : GoStr)
    (ht : t ∈ formatExtensions raw) :
    t ≠ [] ∧ goStartsWith ['.'] t = true ∧ trimSpace t = t ∧ ',' ∉ t := by
  rw [formatExtensions_eq_spec, normalizeSpec] at ht
  rw [List.mem_flatten] at ht
  obtain ⟨inner, hinner, htin⟩ := ht
  rw [List.mem_map] at hinner
  obtain ⟨ext, _, rfl⟩ := hinner
  rw [List.mem_map] at htin
  obtain ⟨t0, ht0, rfl⟩ := htin
  rw [List.mem_filter] at ht0
  obtain ⟨ht0m, ht0ne⟩ := ht0
  rw [List.mem_map] at ht0m
  obtain ⟨s, hs, rfl⟩ := ht0m
  have hcomma : ',' ∉ trimSpace s :=
    fun hm => splitOnComma_no_comma ext s hs (mem_trimSpace s ',' hm)
  have hne : trimSpace s ≠ [] := by
    intro hnil
    rw [hnil] at ht0ne
    simp at ht0ne
  by_cases hd : goStartsWith ['.'] (trimSpace s) = true
  · rw [if_pos hd]
    exact ⟨hne, hd, trimSpace_idem s, hcomma⟩
  · rw [if_neg hd]
    refine ⟨by simp, by simp [goStartsWith], ?_, ?_⟩
    · exact trimSpace_cons_fix '.' (trimSpace s) (by decide) (trimSpace_idem s)
    · intro hm
      rcases List.mem_cons.mp hm with h | h
      · cases h
      · exact hcomma h

/-- A list of tokens that are all non-empty, dot-prefixed, trim-fixed and
comma-free is a fixed point of the normalizer. -/
theorem normalizeSpec_fixed (ys : List GoStr)
    (h : ∀ t ∈ ys, t ≠ [] ∧ goStartsWith ['.'] t = true ∧
      trimSpace t = t ∧ ',' ∉ t) :
    normalizeSpec ys = ys := by
  induction ys with
  | nil => rfl
  | cons y ys ih =>
    obtain ⟨hne, hdot, htrim, hcomma⟩ := h y (List.mem_cons_self y ys)
    have hrest : normalizeSpec ys = ys :=
      ih (fun t htm => h t (List.mem_cons_of_mem y htm))
    rw [normalizeSpec] at hrest ⊢
    rw [List.map_cons, List.flatten_cons, hrest,
      splitOnComma_of_no_comma y hcomma]
    simp [htrim, List.isEmpty_iff, hne, hdot]

/-- C5: `formatExtensions` splits raw tokens on commas, trims each
sub-token, drops empties, prepends a missing dot and keeps input order
(duplicates and case untouched), as the declarative `normalizeSpec` does;
in particular on `["jpg", " .png, txt "]` and on `[""]` it produces
`[".jpg", ".png", ".txt"]` and `[]`. -/
theorem formatExtensions_spec :
    (∀ raw : List GoStr, formatExtensions raw = normalizeSpec raw) ∧
    formatExtensions ["jpg".data, " .png, txt ".data] =
      [".jpg".data, ".png".data, ".txt".data] ∧
    formatExtensions ["".data] = [] :=
  ⟨formatExtensions_eq_spec, by decide, by decide⟩

/-- C6: normalization is idempotent — `formatExtensions` applied to its
own output returns it unchanged. -/
theorem formatExtensions_idempotent (raw : List GoStr) :
    formatExtensions (formatExtensions raw) = formatExtensions raw := by
  rw [formatExtensions_eq_spec (formatExtensions raw)]
  exact normalizeSpec_fixed _ (mem_formatExtensions raw)

/-! ## The scanner: abort-on-error and record invariants -/

/-- The error (if any) that handling one walk event produces in the
callback of `processFiles`. -/
def stepError (fs : FileSys) (exts : List GoStr) (ev : WalkEvent) :
    Option GoError :=
  match ev.err with
  | some e => some e
  | none =>
    if ev.isDir then none
    else if matchesExtension ev.path exts then
      match hashFile fs ev.path with
      | .error e => some (.hashFailed ev.path e)
      | .ok _ =>
        match osStat fs ev.path with
        | .error e => some (.statWrapped ev.path e)
        | .ok _ => none
    else none

/-- `processFiles` unfolded: the banner lines then the walk loop. -/
theorem processFiles_def (fs : FileSys) (events : List WalkEvent)
    (folderPath : GoStr) (exts : List GoStr) :
    processFiles fs events folderPath exts =
      processEvents fs exts events []
        (("Scanning folder: ".data ++ folderPath) ::
          (if exts.length > 0 then
            ["Filtering by extensions: ".data ++ List.intercalate ", ".data exts]
          else ["Processing all file types".data])) := rfl

theorem processEvents_error (fs : FileSys) (exts : List GoStr) :
    ∀ (pre : List WalkEvent) (ev : WalkEvent) (post : List WalkEvent)
      (acc : List HashedFileInfo) (out : List GoStr) (err : GoError),
      (∀ e ∈ pre, stepError fs exts e = none) →
      stepError fs exts ev = some err →
      (processEvents fs exts (pre ++ ev :: post) acc out).1 = .error err := by
  intro pre
  induction pre with
  | nil =>
    intro ev post acc out err _ hev
    rw [List.nil_append]
    simp only [stepError] at hev
    cases herr : ev.err with
    | some e =>
      rw [herr] at hev
      simp only [Option.some.injEq] at hev
      subst hev
      simp [processEvents, herr]
    | none =>
      rw [herr] at hev
      by_cases hdir : ev.isDir = true
      · rw [if_pos hdir] at hev; cases hev
      · rw [if_neg hdir] at hev
        by_cases hm : matchesExtension ev.path exts = true
        · rw [if_pos hm] at hev
          cases hhash : hashFile fs ev.path with
          | error e =>
            rw [hhash] at hev
            simp only [Option.some.injEq] at hev
            subst hev
            simp [processEvents, herr, hdir, hm, hhash]
          | ok hsh =>
            rw [hhash] at hev
            cases hstat : osStat fs ev.path with
            | error e =>
              rw [hstat] at hev
              simp only [Option.some.injEq] at hev
              subst hev
              simp [processEvents, herr, hdir, hm, hhash, hstat]
            | ok st => rw [hstat] at hev; cases hev
        · rw [if_neg hm] at hev; cases hev
  | cons p pre ih =>
    intro ev post acc out err hpre hev
    have hp := hpre p (List.mem_cons_self p pre)
    have hpre2 : ∀ e ∈ pre, stepError fs exts e = none :=
      fun e he => hpre e (List.mem_cons_of_mem p he)
    simp only [stepError] at hp
    rw [List.cons_append]
    cases herr : p.err with
    | some e => rw [herr] at hp; cases hp
    | none =>
      rw [herr] at hp
      by_cases hdir : p.isDir = true
      · simp only [processEvents, herr, hdir, if_true]
        exact ih ev post acc out err hpre2 hev
      · rw [if_neg hdir] at hp
        by_cases hm : matchesExtension p.path exts = true
        · rw [if_pos hm] at hp
          cases hhash : hashFile fs p.path with
          | error e => rw [hhash] at hp; cases hp
          | ok hsh =>
            rw [hhash] at hp
            cases hstat : osStat fs p.path with
            | error e => rw [hstat] at hp; cases hp
            | ok st =>
              simp only [processEvents, herr, hdir, hm, hhash, hstat,
                if_false, if_true, Bool.false_eq_true]
              exact ih ev post _ _ err hpre2 hev
        · simp only [Bool.not_eq_true] at hm
          simp only [processEvents, herr, hdir, hm,
            if_false, Bool.false_eq_true]
          exact ih ev post acc out err hpre2 hev

theorem processEvents_ok_mem (fs : FileSys) (exts : List GoStr) :
    ∀ (events : List WalkEvent) (acc : List HashedFileInfo)
      (out out2 : List GoStr) (files : List HashedFileInfo),
      processEvents fs exts events acc out = (.ok files, out2) →
      ∀ r ∈ files, r ∈ acc ∨ matchesExtension r.path exts = true := by
  intro events
  induction events with
  | nil =>
    intro acc out out2 files h r hr
    simp only [processEvents, Prod.mk.injEq, Except.ok.injEq] at h
    exact Or.inl (h.1 ▸ hr)
  | cons ev rest ih =>
    intro acc out out2 files h r hr
    cases herr : ev.err with
    | some e => simp [processEvents, herr] at h
    | none =>
      by_cases hdir : ev.isDir = true
      · simp only [processEvents, herr, hdir, if_true] at h
        exact ih acc out out2 files h r hr
      · by_cases hm : matchesExtension ev.path exts = true
        · cases hhash : hashFile fs ev.path with
          | error e => simp [processEvents, herr, hdir, hm, hhash] at h
          | ok hsh =>
            cases hstat : osStat fs ev.path with
            | error e => simp [processEvents, herr, hdir, hm, hhash, hstat] at h
            | ok st =>
              simp only [processEvents, herr, hdir, hm, hhash, hstat,
                if_false, if_true, Bool.false_eq_true] at h
              have hres := ih _ _ _ _ h r hr
              rcases hres with hmem | hmatch
              · rcases List.mem_append.mp hmem with hacc | hnew
                · exact Or.inl hacc
                · have hrq : r = ⟨st.name, ev.path, st.size, hsh⟩ := by
                    simpa using hnew
                  subst hrq
                  exact Or.inr hm
              · exact Or.inr hmatch
        · simp only [Bool.not_eq_true] at hm
          simp only [processEvents, herr, hdir, hm,
            if_false, Bool.false_eq_true] at h
          exact ih acc out out2 files h r hr

theorem processEvents_no_match (fs : FileSys) (exts : List GoStr) :
    ∀ (events : List WalkEvent) (acc : List HashedFileInfo) (out : List GoStr),
      (∀ ev ∈ events, ev.err = none) →
      (∀ ev ∈ events, ev.isDir = false → matchesExtension ev.path exts = false) →
      processEvents fs exts events acc out = (.ok acc, out) := by
  intro events
  induction events with
  | nil => intro acc out _ _; rfl
  | cons ev rest ih =>
    intro acc out herr hnm
    have h1 : ev.err = none := herr ev (List.mem_cons_self ev rest)
    have herr2 : ∀ e ∈ rest, e.err = none :=
      fun e he => herr e (List.mem_cons_of_mem ev he)
    have hnm2 : ∀ e ∈ rest, e.isDir = false → matchesExtension e.path exts = false :=
      fun e he => hnm e (List.mem_cons_of_mem ev he)
    by_cases hdir : ev.isDir = true
    · simp only [processEvents, h1, hdir, if_true]
      exact ih acc out herr2 hnm2
    · have hm := hnm ev (List.mem_cons_self ev rest) (by simpa using hdir)
      simp only [processEvents, h1, hdir, hm,
        if_false, Bool.false_eq_true]
      exact ih acc out herr2 hnm2

/-- C3: if handling any walk event fails — a traversal error delivered by
the primitive, or an open/read failure while hashing, or a re-stat
failure — `processFiles` returns an error carrying no records (the
events after the failing one are irrelevant: the walk aborts there), and
the pipeline never reaches `writeToCsv`, so no report file exists. -/
theorem processFiles_abort (fs : FileSys) (exts : List GoStr) (folder : GoStr)
    (pre post post2 : List WalkEvent) (ev : WalkEvent) (err : GoError)
    (hpre : ∀ e ∈ pre, stepError fs exts e = none)
    (hev : stepError fs exts ev = some err) :
    (processFiles fs (pre ++ ev :: post) folder exts).1 = .error err ∧
    (processFiles fs (pre ++ ev :: post) folder exts).1 =
      (processFiles fs (pre ++ ev :: post2) folder exts).1 ∧
    ∀ (env : Env) (args : List GoStr),
      env.fs = fs → env.events = pre ++ ev :: post →
      formatExtensions env.rawExts = exts →
      (mainRun env args).stderrErr.isSome = true ∧
      (mainRun env args).csvFile = none := by
  have key : ∀ (post3 : List WalkEvent) (folder3 : GoStr),
      (processFiles fs (pre ++ ev :: post3) folder3 exts).1 = .error err := by
    intro post3 folder3
    rw [processFiles]
    exact processEvents_error fs exts pre ev post3 [] _ err hpre hev
  refine ⟨key post folder, (key post folder).trans (key post2 folder).symm, ?_⟩
  intro env args hfs hevts hexts
  rw [mainRun]
  by_cases hlen : args.length > 1
  · rw [if_pos hlen]
    exact ⟨rfl, rfl⟩
  · rw [if_neg hlen]
    cases hgf : getFolderPath env args with
    | error e =>
      simp only [runE, hgf]
      exact ⟨by trivial, by trivial⟩
    | ok folder3 =>
      have hk := key post folder3
      cases hpf : processFiles fs (pre ++ ev :: post) folder3 exts with
      | mk res outs =>
        have hk2 : res = .error err := by rw [hpf] at hk; exact hk
        subst hk2
        simp only [runE, hgf, hfs, hevts, hexts, hpf]
        exact ⟨by trivial, by trivial⟩

/-- A directory event followed by a matching file that cannot be opened. -/
def evScanDir : WalkEvent := ⟨"d".data, true, none⟩

/-- A file event whose path no filesystem entry backs, so hashing fails. -/
def evScanBad : WalkEvent := ⟨"d/x.txt".data, false, none⟩

/-- A filesystem with no openable files. -/
def fsNone : FileSys := fun _ => none

theorem processFiles_abort_witness :
    (processFiles fsNone [evScanDir, evScanBad] "d".data []).1 =
      .error (.hashFailed "d/x.txt".data .openFailed) :=
  (processFiles_abort fsNone [] "d".data [evScanDir] [] []
    evScanBad (.hashFailed "d/x.txt".data .openFailed)
    (by decide) (by decide)).1

/-- C9: every filter entry `formatExtensions` produces is non-empty and
dot-prefixed; hence with a non-empty normalized filter a path whose
`filepath.Ext` is empty (no dot in the base name) never matches, and no
record of a successful scan has such a path — extensionless files are
never hashed or recorded. -/
theorem formatted_filter_excludes_extensionless (raw : List GoStr) :
    (∀ t ∈ formatExtensions raw, t ≠ [] ∧ goStartsWith ['.'] t = true) ∧
    (∀ p : GoStr, formatExtensions raw ≠ [] → pathExt p = [] →
      matchesExtension p (formatExtensions raw) = false) ∧
    (∀ (fs : FileSys) (events : List WalkEvent) (folder : GoStr)
        (files : List HashedFileInfo) (out : List GoStr),
      processFiles fs events folder (formatExtensions raw) = (.ok files, out) →
      formatExtensions raw ≠ [] →
      ∀ r ∈ files, pathExt r.path ≠ []) := by
  have hmem : ∀ t ∈ formatExtensions raw, t ≠ [] ∧ goStartsWith ['.'] t = true :=
    fun t ht => ⟨(mem_formatExtensions raw t ht).1,
      (mem_formatExtensions raw t ht).2.1⟩
  have hnomatch : ∀ p : GoStr, formatExtensions raw ≠ [] → pathExt p = [] →
      matchesExtension p (formatExtensions raw) = false := by
    intro p hne hext
    rw [matchesExtension,
      if_neg (fun h0 => hne (List.length_eq_zero.mp h0))]
    rw [List.any_eq_false]
    intro e he
    simp only [decide_eq_true_eq]
    intro heq
    exact (hmem e he).1 (heq ▸ hext)
  refine ⟨hmem, hnomatch, ?_⟩
  intro fs events folder files out hpf hne r hr
  intro hext
  have := processEvents_ok_mem fs (formatExtensions raw) events [] _ _ files
    (by rw [processFiles] at hpf; exact hpf) r hr
  rcases this with hnil | hmatch
  · cases hnil
  · rw [hnomatch r.path hne hext] at hmatch
    cases hmatch

theorem formatted_filter_excludes_extensionless_witness :
    matchesExtension "dir/noext".data (formatExtensions ["jpg".data]) = false :=
  (formatted_filter_excludes_extensionless ["jpg".data]).2.1 "dir/noext".data
    (by decide) (by decide)

/-- C10: a successful walk in which no file matches is not an error:
`writeToCsv` creates the timestamped report containing exactly the header
row, the `Output written to:` line is printed, and the run finishes with
no error on standard error and exit status 0. -/
theorem emptyMatch_writes_header_only (env : Env) (args : List GoStr)
    (folder : GoStr)
    (hargs : ¬args.length > 1)
    (hfolder : getFolderPath env args = .ok folder)
    (herr : ∀ ev ∈ env.events, ev.err = none)
    (hnm : ∀ ev ∈ env.events, ev.isDir = false →
      matchesExtension ev.path (formatExtensions env.rawExts) = false)
    (hc : env.csv.createOk = true) (hh : env.csv.headerWriteOk = true)
    (hr : env.csv.rowWriteFailAt = none) :
    (mainRun env args).exitCode = 0 ∧
    (mainRun env args).stderrErr = none ∧
    (mainRun env args).csvFile = some (outputFilename env.csv, [csvHeader]) ∧
    ("Output written to: ".data ++
        env.csv.absResolve.getD (outputFilename env.csv))
      ∈ (mainRun env args).stdout := by
  have hw : writeToCsv env.csv [] =
      ⟨.ok (), some (outputFilename env.csv, [csvHeader]),
        ["Output written to: ".data ++
          env.csv.absResolve.getD (outputFilename env.csv)]⟩ := by
    rw [writeToCsv, hc, hh]
    simp only [Bool.not_true, Bool.false_eq_true, if_false, writeRows, hr]
    rfl
  rw [mainRun, if_neg hargs]
  simp only [runE, hfolder, processFiles_def,
    processEvents_no_match env.fs (formatExtensions env.rawExts)
      env.events [] _ herr hnm, hw]
  refine ⟨by trivial, by trivial, by trivial, ?_⟩
  simp

/-- An environment whose walk delivers no events and whose report file
writes all succeed. -/
def envEmptyOk : Env :=
  { fs := fsNone, events := [], dirStat := fun _ => none,
    cwd := some "w".data, rawExts := [],
    csv := ⟨"20250101_120000".data, true, true, none, none⟩ }

theorem emptyMatch_writes_header_only_witness :
    (mainRun envEmptyOk []).exitCode = 0 ∧
    (mainRun envEmptyOk []).stderrErr = none ∧
    (mainRun envEmptyOk []).csvFile =
      some (outputFilename envEmptyOk.csv, [csvHeader]) ∧
    ("Output written to: ".data ++
        envEmptyOk.csv.absResolve.getD (outputFilename envEmptyOk.csv))
      ∈ (mainRun envEmptyOk []).stdout :=
  emptyMatch_writes_header_only envEmptyOk [] "w".data
    (by decide) rfl (by simp [envEmptyOk]) (by simp [envEmptyOk])
    rfl rfl rfl

/-! ## The report writer -/

/-- C7: on success `writeToCsv` produces exactly one header row with the
columns `Name`, `Path`, `Size (MB)`, `Hash` in that order, followed by
one row per record in the order the scan appended them, with no trailing
summary row, and prints the report path. -/
theorem writeToCsv_success (env : CsvEnv) (records : List HashedFileInfo)
    (hc : env.createOk = true) (hh : env.headerWriteOk = true)
    (hr : env.rowWriteFailAt = none) :
    writeToCsv env records =
      ⟨.ok (), some (outputFilename env,
        ["Name".data, "Path".data, "Size (MB)".data, "Hash".data]
          :: records.map recordRow),
       ["Output written to: ".data ++
         env.absResolve.getD (outputFilename env)]⟩ := by
  rw [writeToCsv, hc, hh]
  simp only [Bool.not_true, Bool.false_eq_true, if_false, writeRows, hr]
  rfl

/-- A report-writer environment in which every write succeeds. -/
def csvEnvOk : CsvEnv := ⟨"20250101_120000".data, true, true, none, none⟩

/-- Two sample records, in scan order. -/
def recA : HashedFileInfo :=
  ⟨"a.txt".data, "d/a.txt".data, 1048576, "aa".data⟩

/-- A second sample record. -/
def recB : HashedFileInfo :=
  ⟨"b.txt".data, "d/b.txt".data, 524288, "bb".data⟩

theorem writeToCsv_success_witness :
    writeToCsv csvEnvOk [recA, recB] =
      ⟨.ok (), some (outputFilename csvEnvOk,
        ["Name".data, "Path".data, "Size (MB)".data, "Hash".data]
          :: [recA, recB].map recordRow),
       ["Output written to: ".data ++
         csvEnvOk.absResolve.getD (outputFilename csvEnvOk)]⟩ :=
  writeToCsv_success csvEnvOk [recA, recB] rfl rfl rfl

/-! ## Failure surface of the whole program (claim C4) -/

/-- An environment in which the header write fails after the report file
has been created. -/
def envHeaderFail : Env :=
  { fs := fsNone, events := [], dirStat := fun _ => none,
    cwd := some "w".data, rawExts := [],
    csv := ⟨"20250101_120000".data, true, false, none, none⟩ }

/-- C4 counterexample: a run whose header write fails prints an error to
standard error, yet the process exit status is 0 (`main` prints the error
and returns without `os.Exit`), and the created output file is still
there — the claim's "exits non-zero" and "no output file is produced"
both fail. -/
theorem mainRun_failure_counterexample :
    (mainRun envHeaderFail []).stderrErr.isSome = true ∧
    (mainRun envHeaderFail []).exitCode = 0 ∧
    (mainRun envHeaderFail []).csvFile ≠ none := by decide

/-- C4 amended: whenever the program fails with an error of the taxonomy
it prints the error to standard error, but the process exits with status
0 (`main` never calls `os.Exit`), and no output file is produced only
when the failure happens before `os.Create` succeeds; when the header or
a row fails to write, the created file remains. -/
theorem mainRun_failure_behavior (env : Env) (args : List GoStr) (e : GoError)
    (h : (mainRun env args).stderrErr = some e) :
    (mainRun env args).exitCode = 0 ∧
    ((mainRun env args).csvFile ≠ none →
      e = .headerWriteFailed ∨ e = .rowWriteFailed) := by
  refine ⟨?_, ?_⟩
  · rw [mainRun]
    by_cases hlen : args.length > 1
    · rw [if_pos hlen]
    · rw [if_neg hlen]
      cases hre : runE env args with
      | mk res rest => cases res <;> rfl
  · intro hfile
    rw [mainRun] at h hfile
    by_cases hlen : args.length > 1
    · rw [if_pos hlen] at hfile
      exact absurd rfl hfile
    · rw [if_neg hlen] at h hfile
      cases hgf : getFolderPath env args with
      | error e2 =>
        simp only [runE, hgf] at hfile
        exact absurd rfl hfile
      | ok folder =>
        cases hpf : processFiles env.fs env.events folder
            (formatExtensions env.rawExts) with
        | mk res outs =>
          cases res with
          | error e2 =>
            simp only [runE, hgf, hpf] at hfile
            exact absurd rfl hfile
          | ok files =>
            simp only [runE, hgf, hpf] at h hfile
            by_cases hcr : env.csv.createOk = true
            · by_cases hhd : env.csv.headerWriteOk = true
              · cases hrw : writeRows files env.csv.rowWriteFailAt with
                | mk wres wrows =>
                  cases wres with
                  | error we =>
                    have hwe : we = .rowWriteFailed := by
                      cases hfail : env.csv.rowWriteFailAt with
                      | none =>
                        rw [hfail] at hrw
                        simp only [writeRows] at hrw
                        injection hrw with h1 h2
                        injection h1
                      | some k =>
                        rw [hfail] at hrw
                        simp only [writeRows] at hrw
                        by_cases hk : k < files.length
                        · rw [if_pos hk] at hrw
                          injection hrw with h1 h2
                          injection h1 with h3
                          exact h3.symm
                        · rw [if_neg hk] at hrw
                          injection hrw with h1 h2
                          injection h1
                    simp only [writeToCsv, hcr, hhd, Bool.not_true,
                      Bool.false_eq_true, if_false, hrw] at h
                    have h2 : e = we := by simpa using h.symm
                    exact Or.inr (h2.trans hwe)
                  | ok u =>
                    simp only [writeToCsv, hcr, hhd, Bool.not_true,
                      Bool.false_eq_true, if_false, hrw] at h
                    cases h
              · have hhd2 : env.csv.headerWriteOk = false := by
                  simpa using hhd
                simp only [writeToCsv, hcr, hhd2, Bool.not_true,
                  Bool.not_false, Bool.false_eq_true, if_false, if_true] at h
                have h2 : e = GoError.headerWriteFailed := by
                  simpa using h.symm
                exact Or.inl h2
            · have hcr2 : env.csv.createOk = false := by simpa using hcr
              simp only [writeToCsv, hcr2, Bool.not_false, if_true] at hfile
              exact absurd rfl hfile

theorem mainRun_failure_behavior_witness :
    (mainRun envHeaderFail []).exitCode = 0 ∧
    ((mainRun envHeaderFail []).csvFile ≠ none →
      GoError.headerWriteFailed = .headerWriteFailed ∨
      GoError.headerWriteFailed = .rowWriteFailed) :=
  mainRun_failure_behavior envHeaderFail [] .headerWriteFailed (by decide)

/-! ## The Size (MB) field -/

theorem digitChar10_isDigit : ∀ m < 10, (digitChar10 m).isDigit = true := by
  decide

theorem natToDecAux_spec : ∀ fuel n, n < fuel →
    natToDecAux fuel n ≠ [] ∧ ∀ c ∈ natToDecAux fuel n, c.isDigit = true := by
  intro fuel
  induction fuel with
  | zero => intro n h; omega
  | succ fuel ih =>
    intro n h
    simp only [natToDecAux]
    by_cases h10 : n < 10
    · rw [if_pos h10]
      refine ⟨by simp, ?_⟩
      intro c hc
      have : c = digitChar10 n := List.mem_singleton.mp hc
      subst this
      exact digitChar10_isDigit n h10
    · rw [if_neg h10]
      have hlt : n / 10 < fuel := by omega
      obtain ⟨hne, hdig⟩ := ih (n / 10) hlt
      refine ⟨by simp [hne], ?_⟩
      intro c hc
      rcases List.mem_append.mp hc with hc | hc
      · exact hdig c hc
      · have : c = digitChar10 (n % 10) := List.mem_singleton.mp hc
        subst this
        exact digitChar10_isDigit _ (Nat.mod_lt _ (by omega))

theorem natToDec_spec (n : ℕ) :
    natToDec n ≠ [] ∧ ∀ c ∈ natToDec n, c.isDigit = true :=
  natToDecAux_spec (n + 1) n (by omega)

theorem natToDecAux_small (fuel n : ℕ) (hf : 0 < fuel) (h10 : n < 10) :
    natToDecAux fuel n = [digitChar10 n] := by
  cases fuel with
  | zero => omega
  | succ f =>
    simp only [natToDecAux]
    rw [if_pos h10]

theorem natToDec_lt10 (n : ℕ) (h : n < 10) : natToDec n = [digitChar10 n] :=
  natToDecAux_small (n + 1) n (by omega) h

theorem natToDec_two (m : ℕ) (h10 : 10 ≤ m) (h100 : m < 100) :
    natToDec m = [digitChar10 (m / 10), digitChar10 (m % 10)] := by
  rw [natToDec]
  simp only [natToDecAux]
  rw [if_neg (by omega), natToDecAux_small m (m / 10) (by omega) (by omega)]
  rfl

/-- `goFmtF2` always renders an integer part of at least one digit, a
decimal point, and exactly two decimal digits. -/
theorem goFmtF2_shape (num den : ℕ) :
    ∃ ds d1 d2, goFmtF2 num den = ds ++ '.' :: [d1, d2] ∧ ds ≠ [] ∧
      (∀ c ∈ ds, c.isDigit = true) ∧
      d1.isDigit = true ∧ d2.isDigit = true := by
  rw [goFmtF2]
  set n := roundNatTE (num * 100) den with hn
  by_cases hfr : n % 100 < 10
  · refine ⟨natToDec (n / 100), '0', digitChar10 (n % 100), ?_, ?_, ?_, ?_, ?_⟩
    · rw [if_pos hfr, natToDec_lt10 _ hfr]
    · exact (natToDec_spec _).1
    · exact (natToDec_spec _).2
    · decide
    · exact digitChar10_isDigit _ (by omega)
  · refine ⟨natToDec (n / 100), digitChar10 (n % 100 / 10),
      digitChar10 (n % 100 % 10), ?_, ?_, ?_, ?_, ?_⟩
    · rw [if_neg hfr, natToDec_two (n % 100) (by omega) (Nat.mod_lt _ (by omega))]
    · exact (natToDec_spec _).1
    · exact (natToDec_spec _).2
    · exact digitChar10_isDigit _ (by omega)
    · exact digitChar10_isDigit _ (by omega)

/-- The all-natural ties-to-even rounding of `roundNatTE` computes the
specification-level nearest-integer (ties to even) rounding on `ℚ`. -/
theorem roundNatTE_eq_nearestTE (a b : ℕ) (hb : 0 < b) :
    (roundNatTE a b : ℤ) = nearestTE ((a : ℚ) / b) := by
  have hbQ : (0 : ℚ) < (b : ℚ) := by exact_mod_cast hb
  have hmod : (b : ℚ) * ((a / b : ℕ) : ℚ) + ((a % b : ℕ) : ℚ) = (a : ℚ) := by
    exact_mod_cast congrArg (Nat.cast (R := ℚ)) (Nat.div_add_mod a b)
  have hkey : (a : ℚ) / b = ((a % b : ℕ) : ℚ) / b + ((a / b : ℕ) : ℚ) := by
    rw [← hmod]
    field_simp
    ring
  have hfr0 : (0 : ℚ) ≤ ((a % b : ℕ) : ℚ) / b := by positivity
  have hfr1 : ((a % b : ℕ) : ℚ) / b < 1 := by
    rw [div_lt_one hbQ]
    exact_mod_cast Nat.mod_lt a hb
  have hfloor : ⌊(a : ℚ) / b⌋ = ((a / b : ℕ) : ℤ) := by
    rw [hkey, Int.floor_add_nat,
      Int.floor_eq_zero_iff.mpr (Set.mem_Ico.mpr ⟨hfr0, hfr1⟩), zero_add]
  have hq : (a : ℚ) / b - (⌊(a : ℚ) / b⌋ : ℚ) = ((a % b : ℕ) : ℚ) / b := by
    rw [hfloor, hkey, Int.cast_natCast]
    ring
  rw [nearestTE, hq, hfloor, roundNatTE]
  by_cases h1 : 2 * (a % b) < b
  · have hf1 : ((a % b : ℕ) : ℚ) / b < 1 / 2 := by
      rw [div_lt_div_iff₀ hbQ (by norm_num : (0 : ℚ) < 2)]
      exact_mod_cast (by omega : (a % b) * 2 < 1 * b)
    rw [if_pos h1, if_pos hf1]
  · by_cases h2 : b < 2 * (a % b)
    · have hf2 : 1 / 2 < ((a % b : ℕ) : ℚ) / b := by
        rw [div_lt_div_iff₀ (by norm_num : (0 : ℚ) < 2) hbQ]
        exact_mod_cast (by omega : 1 * b < (a % b) * 2)
      rw [if_neg h1, if_pos h2, if_neg (not_lt.mpr (le_of_lt hf2)), if_pos hf2]
      push_cast
      ring
    · have hfeq : ((a % b : ℕ) : ℚ) / b = 1 / 2 := by
        rw [div_eq_div_iff (ne_of_gt hbQ) (by norm_num : (2 : ℚ) ≠ 0)]
        exact_mod_cast (by omega : (a % b) * 2 = 1 * b)
      have hnotlt : ¬((a % b : ℕ) : ℚ) / b < 1 / 2 := by
        rw [hfeq]
        exact lt_irrefl _
      have hnotgt : ¬(1 / 2 : ℚ) < ((a % b : ℕ) : ℚ) / b := by
        rw [hfeq]
        exact lt_irrefl _
      rw [if_neg h1, if_neg h2, if_neg hnotlt, if_neg hnotgt]
      by_cases hp : (a / b) % 2 = 0
      · have hpz : ((a / b : ℕ) : ℤ) % 2 = 0 := by omega
        rw [if_pos hp, if_pos hpz]
      · have hpz : ¬((a / b : ℕ) : ℤ) % 2 = 0 := by omega
        rw [if_neg hp, if_neg hpz]
        push_cast
        ring

/-- The `float64` conversion is exact for every realistic size. -/
theorem f64OfNat_small (n : ℕ) (h : n ≤ 2 ^ 53) : f64OfNat n = n := by
  rw [f64OfNat, if_pos h]

/-- C8: for every record, the `Size (MB)` CSV field is the record byte
count divided by 1048576.0 as a `float64` (exact below `2 ^ 53`, i.e.
for every realistic size) rendered by `%.2f` — the exact rational
`size / 1048576` rounded at the second decimal digit, nearest with ties
to even, printed with exactly two digits after the decimal point; in
particular 1,048,576 bytes render as `1.00`. -/
theorem csv_size_field (r : HashedFileInfo) (hsize : r.size ≤ 2 ^ 53) :
    (recordRow r).getD 2 [] = goFmtF2 r.size 1048576 ∧
    (∀ a b : ℕ, 0 < b → (roundNatTE a b : ℤ) = nearestTE ((a : ℚ) / b)) ∧
    (∃ ds d1 d2, goFmtF2 r.size 1048576 = ds ++ '.' :: [d1, d2] ∧ ds ≠ [] ∧
      (∀ c ∈ ds, c.isDigit = true) ∧
      d1.isDigit = true ∧ d2.isDigit = true) ∧
    sizeMBStr 1048576 = "1.00".data := by
  refine ⟨?_, fun a b hb => roundNatTE_eq_nearestTE a b hb,
    goFmtF2_shape _ _, by decide⟩
  show sizeMBStr r.size = goFmtF2 r.size 1048576
  rw [sizeMBStr, f64OfNat_small r.size hsize]

theorem csv_size_field_witness :
    (recordRow recA).getD 2 [] = goFmtF2 recA.size 1048576 ∧
    (∀ a b : ℕ, 0 < b → (roundNatTE a b : ℤ) = nearestTE ((a : ℚ) / b)) ∧
    (∃ ds d1 d2, goFmtF2 recA.size 1048576 = ds ++ '.' :: [d1, d2] ∧ ds ≠ [] ∧
      (∀ c ∈ ds, c.isDigit = true) ∧
      d1.isDigit = true ∧ d2.isDigit = true) ∧
    sizeMBStr 1048576 = "1.00".data :=
  csv_size_field recA (by decide)

end DupeD
